import Mathlib

/-!
Verification of `src/software/nios2_matrix_accel_benchmark.c`
(DE1-SoC matrix-operation accelerator benchmark, NIOS II host program).

The C program is shallowly embedded:
  * matrices are total maps `Nat → Int`, with validity predicates for the
    16-bit operand range and the documented safe input range (±23170);
  * 32-bit machine arithmetic is modelled by the two's-complement wrap
    `wrap32`; bus words are `Nat` values, converted with `u32` / `toI32`;
  * `software_matrix_operations` (lines 26-64) becomes `sw_sum`, `sw_diff`,
    `sw_prodAcc` / `sw_prod`;
  * `hardware_matrix_operations` (lines 66-116) becomes an event-trace
    program over an oracle `resp : List Ev → Nat → Nat` answering MMIO
    reads, with fuel for the unbounded status poll;
  * the timer readback and the speedup division of `main` become
    `stop_and_read` and `speedup`.
-/

/-- Two's-complement wrap of an integer into the signed 32-bit range,
modelling `int32_t` arithmetic results. -/
def wrap32 (x : Int) : Int := (x + 2147483648) % 4294967296 - 2147483648

/-- Value of an `int` cast to `uint32_t` as written on the 32-bit Avalon bus
(line 75: `accel_base[A_OFFSET + i] = (uint32_t)A[i]`). -/
def u32 (x : Int) : Nat := (x % 4294967296).toNat

/-- Reinterpretation of a 32-bit bus word as `int32_t`
(line 100: `HW_Sum[i] = (int32_t)accel_base[SUM_OFFSET + i]`). -/
def toI32 (n : Nat) : Int :=
  if n % 4294967296 < 2147483648 then ((n % 4294967296 : Nat) : Int)
  else ((n % 4294967296 : Nat) : Int) - 4294967296

/-- Signed value carried by the low 16 bits of a bus word; the peripheral
consumes only bits [15:0] of each operand word (comment at line 75). -/
def decode16 (n : Nat) : Int :=
  if n % 65536 < 32768 then ((n % 65536 : Nat) : Int)
  else ((n % 65536 : Nat) : Int) - 65536

/-- Element-wise sum, `SW_Sum[i] = (int32_t)A[i] + (int32_t)B[i]` (line 34). -/
def sw_sum (A B : Nat → Int) (i : Nat) : Int := wrap32 (A i + B i)

/-- Element-wise difference, `SW_Diff[i] = (int32_t)A[i] - (int32_t)B[i]`
(line 40). -/
def sw_diff (A B : Nat → Int) (i : Nat) : Int := wrap32 (A i - B i)

/-- The inner accumulation loop of the software product (lines 48-58):
`sum = sum + (int32_t)A[i*4 + k] * (int32_t)B[k*4 + j]`, starting from 0,
with 32-bit machine arithmetic at each step. -/
def sw_prodAcc (A B : Nat → Int) (i j : Nat) : Nat → Int
  | 0 => 0
  | k + 1 => wrap32 (sw_prodAcc A B i j k + wrap32 (A (i * 4 + k) * B (k * 4 + j)))

/-- `SW_Result[i*4 + j]` after the full k-loop; a flat index `idx` decodes to
row `idx / 4`, column `idx % 4` (line 60). -/
def sw_prod (A B : Nat → Int) (idx : Nat) : Int :=
  sw_prodAcc A B (idx / 4) (idx % 4) 4

/-- The same accumulation over unbounded integers (no 32-bit wrap); used to
express that the machine computation never overflows. -/
def prodAccExact (A B : Nat → Int) (i j : Nat) : Nat → Int
  | 0 => 0
  | k + 1 => prodAccExact A B i j k + A (i * 4 + k) * B (k * 4 + j)

/-- All 16 elements lie within the documented safe input range
(`SAFE_INPUT_MAX` = 23170, line 6). -/
def safeRange (M : Nat → Int) : Prop :=
  ∀ i, i < 16 → -23170 ≤ M i ∧ M i ≤ 23170

/-- All 16 elements lie within the `int16_t` range of the operand arrays. -/
def int16Range (M : Nat → Int) : Prop :=
  ∀ i, i < 16 → -32768 ≤ M i ∧ M i ≤ 32767

/-- Membership in the signed 32-bit range. -/
def inI32 (x : Int) : Prop := -2147483648 ≤ x ∧ x ≤ 2147483647

/-- The 4×4 identity matrix in flat row-major form. -/
def idMat : Nat → Int := fun idx => if idx / 4 = idx % 4 then 1 else 0

/-- The speedup computation of `main` (line 285):
`int speedup = (sw_cycles / hw_cycles);` on `uint32_t` operands.  Division
by zero is a fault, modelled as `none`; the source contains no guard. -/
def speedup (sw_cycles hw_cycles : Nat) : Option Nat :=
  if hw_cycles % 4294967296 = 0 then none
  else some ((sw_cycles % 4294967296) / (hw_cycles % 4294967296))

/-- Constant matrix of ones, used as a concrete test operand. -/
def oneM : Nat → Int := fun _ => 1

/-- Constant zero matrix, used as a concrete test operand. -/
def zeroM : Nat → Int := fun _ => 0

/-- A memory-mapped bus access observed at the accelerator: a write or a
read of a 32-bit word at a word-address offset from the peripheral base. -/
inductive Ev where
  | write : Nat → Nat → Ev
  | read : Nat → Nat → Ev
deriving DecidableEq

/-- Append a write event to the access log. -/
def wrE (log : List Ev) (a v : Nat) : List Ev := log ++ [Ev.write a v]

/-- The operand-write loops of `hardware_matrix_operations` (lines 73-85):
`for (i = 0; i < 16; i++) accel_base[base + i] = value;`, accesses in
increasing address order. -/
def writeRegion (f : Nat → Nat) (base : Nat) : Nat → List Ev → List Ev
  | 0, log => log
  | n + 1, log => wrE (writeRegion f base n log) (base + n) (f n)

/-- The status poll of lines 91-94:
`while ((accel_base[STATUS_OFFSET] & 0x1) == 0) {}`.  The peripheral is an
oracle `resp` answering each read from the access history; `fuel` bounds
how many iterations we are willing to unfold, `none` meaning the loop has
not terminated within that bound. -/
def poll (resp : List Ev → Nat → Nat) : Nat → List Ev → Option (List Ev)
  | 0, _ => none
  | fuel + 1, log =>
    if resp log 81 % 2 = 1 then some (log ++ [Ev.read 81 (resp log 81)])
    else poll resp fuel (log ++ [Ev.read 81 (resp log 81)])

/-- The result-read loops of lines 98-115: sixteen reads at increasing
addresses, each bus word reinterpreted as `int32_t`. -/
def readRegion (resp : List Ev → Nat → Nat) (base : Nat) :
    Nat → List Ev → List Ev × List Int
  | 0, log => (log, [])
  | n + 1, log =>
    match readRegion resp base n log with
    | (l, vs) => (l ++ [Ev.read (base + n) (resp l (base + n))],
                  vs ++ [toI32 (resp l (base + n))])

/-- The access log after steps 1-3 of the driver: operand-A writes at
offsets 0..15, operand-B writes at 16..31, then the control write of 1 at
offset 80 (lines 73-88). -/
def initLog (A B : Nat → Int) : List Ev :=
  wrE (writeRegion (fun i => u32 (B i)) 16 16
    (writeRegion (fun i => u32 (A i)) 0 16 [])) 80 1

/-- Step 5 of the driver, given the log `l4` at the end of the poll: read
the three result regions in order (sum 32..47, diff 48..63, prod 64..79),
returning the final log and the three decoded result lists. -/
def hwOut (resp : List Ev → Nat → Nat) (l4 : List Ev) :
    List Ev × List Int × List Int × List Int :=
  ((readRegion resp 64 16 (readRegion resp 48 16
      (readRegion resp 32 16 l4).1).1).1,
   (readRegion resp 32 16 l4).2,
   (readRegion resp 48 16 (readRegion resp 32 16 l4).1).2,
   (readRegion resp 64 16 (readRegion resp 48 16
      (readRegion resp 32 16 l4).1).1).2)

/-- The driver `hardware_matrix_operations` (lines 66-116): write A, write
B, write 1 to control, poll status, then read the sum, difference and
product regions.  Returns the final access log and the three result
matrices, or `none` when the poll does not terminate within `fuel` reads. -/
def hardware_matrix_operations (resp : List Ev → Nat → Nat) (A B : Nat → Int)
    (fuel : Nat) : Option (List Ev × List Int × List Int × List Int) :=
  (poll resp fuel (initLog A B)).map (hwOut resp)

/-- Access log after `n` status reads starting from `log`. -/
def pollLog (resp : List Ev → Nat → Nat) (log : List Ev) : Nat → List Ev
  | 0 => log
  | n + 1 => pollLog resp log n ++ [Ev.read 81 (resp (pollLog resp log n) 81)]

/-- Value returned by the `n`-th status-register read of the poll loop. -/
def statusSeq (resp : List Ev → Nat → Nat) (log : List Ev) (n : Nat) : Nat :=
  resp (pollLog resp log n) 81

/-- Read events at consecutive addresses `base + i, base + i + 1, ...`
carrying the given values. -/
def readsAtFrom (base : Nat) : Nat → List Nat → List Ev
  | _, [] => []
  | i, v :: vs => Ev.read (base + i) v :: readsAtFrom base (i + 1) vs

/-- The sixteen operand-A writes, in address order. -/
def aWrites (A : Nat → Int) : List Ev :=
  (List.range 16).map fun i => Ev.write i (u32 (A i))

/-- The sixteen operand-B writes, in address order. -/
def bWrites (B : Nat → Int) : List Ev :=
  (List.range 16).map fun i => Ev.write (16 + i) (u32 (B i))

/-- Status-register read events carrying the given values. -/
def statusReads (vs : List Nat) : List Ev := vs.map fun v => Ev.read 81 v

/-- Whether an access-log event is a read. -/
def isReadEv : Ev → Bool
  | Ev.read _ _ => true
  | Ev.write _ _ => false

/-- Value of the most recent write to address `a` in the log, if any. -/
def lastWriteTo (log : List Ev) (a : Nat) : Option Nat :=
  (log.filterMap fun e =>
    match e with
    | Ev.write b v => if b = a then some v else none
    | Ev.read _ _ => none).getLast?

/-- The signed 16-bit operand-A value the peripheral holds at index `i`:
the low 16 bits of the last word written to offset `i`. -/
def regA (log : List Ev) (i : Nat) : Int := decode16 ((lastWriteTo log i).getD 0)

/-- The signed 16-bit operand-B value the peripheral holds at index `i`. -/
def regB (log : List Ev) (i : Nat) : Int :=
  decode16 ((lastWriteTo log (16 + i)).getD 0)

/-- Modelled from the spec: the accelerator hardware itself
(`mat_mul_sub_add_all_parallel_16bit.sv`, referenced at line 17) is not in
the C source tree, so the peripheral is modelled from the spec's register
map (§6) and semantics: offsets 32-47 return `A+B` per element, 48-63
return `A-B`, 64-79 return the matrix product, the status register returns
done (bit 0 = 1) once the control write of 1 has occurred, and each
operand register consumes only the low 16 bits of the last word written. -/
def specResp (log : List Ev) (a : Nat) : Nat :=
  if a = 81 then (if (lastWriteTo log 80).getD 0 % 2 = 1 then 1 else 0)
  else if 32 ≤ a ∧ a < 48 then u32 (regA log (a - 32) + regB log (a - 32))
  else if 48 ≤ a ∧ a < 64 then u32 (regA log (a - 48) - regB log (a - 48))
  else if 64 ≤ a ∧ a < 80 then
    u32 (((List.range 4).map fun k =>
      regA log ((a - 64) / 4 * 4 + k) * regB log (k * 4 + (a - 64) % 4)).sum)
  else 0

/-- The access log after the poll succeeds at once against `specResp`:
the initial writes followed by one status read returning 1 (done). -/
def l4spec (A B : Nat → Int) : List Ev := initLog A B ++ [Ev.read 81 1]

/-- Oracle whose status register always reads 1 and whose data reads
return 0; used as a concrete peripheral instance. -/
def respOne : List Ev → Nat → Nat := fun _ a => if a = 81 then 1 else 0

/-- The concrete access log produced by the driver run against `respOne`
on zero operands with fuel 1. -/
def cLog : List Ev :=
  aWrites zeroM ++ bWrites zeroM ++ [Ev.write 80 1] ++ [Ev.read 81 1] ++
    readsAtFrom 32 0 (List.replicate 16 0) ++ readsAtFrom 48 0 (List.replicate 16 0) ++
    readsAtFrom 64 0 (List.replicate 16 0)

/-- The timer stop-and-read sequence of `main` (lines 197-200 and 211-214):
write 0x8 to the timer control (stop bit), write 1 to the snapshot register,
read the high 16-bit half and the low 16-bit half, combine them as
`(high << 16) | low` and return `0xFFFFFFFF - count` in `uint32_t`
arithmetic.  `hi16` and `lo16` are the values the two reads return. -/
def stop_and_read (hi16 lo16 : Nat) : List Ev × Nat :=
  ([Ev.write 1 8, Ev.write 4 1, Ev.read 5 hi16, Ev.read 4 lo16],
   (4294967295 +
     (4294967296 - ((((hi16 % 4294967296) <<< 16) % 4294967296) ||| (lo16 % 4294967296)))) %
     4294967296)

theorem wrap32_eq {x : Int} (h1 : -2147483648 ≤ x) (h2 : x ≤ 2147483647) :
    wrap32 x = x := by
  unfold wrap32
  omega

theorem mul_range {a b : Int} (ha1 : -23170 ≤ a) (ha2 : a ≤ 23170)
    (hb1 : -23170 ≤ b) (hb2 : b ≤ 23170) :
    -536848900 ≤ a * b ∧ a * b ≤ 536848900 := by
  constructor <;> nlinarith

theorem prodAccExact_bound (A B : Nat → Int) (hA : safeRange A) (hB : safeRange B)
    {i j : Nat} (hi : i < 4) (hj : j < 4) :
    ∀ k : Nat, k ≤ 4 → -(536848900 * (k : Int)) ≤ prodAccExact A B i j k ∧
      prodAccExact A B i j k ≤ 536848900 * (k : Int) := by
  intro k
  induction k with
  | zero => intro _; simp [prodAccExact]
  | succ k ih =>
    intro hk
    have h1 := ih (by omega)
    have ha := hA (i * 4 + k) (by omega)
    have hb := hB (k * 4 + j) (by omega)
    have hm := mul_range ha.1 ha.2 hb.1 hb.2
    simp only [prodAccExact]
    constructor <;> push_cast <;> push_cast at h1 <;>
      linarith [h1.1, h1.2, hm.1, hm.2]

theorem sw_prodAcc_eq (A B : Nat → Int) (hA : safeRange A) (hB : safeRange B)
    {i j : Nat} (hi : i < 4) (hj : j < 4) :
    ∀ k : Nat, k ≤ 4 → sw_prodAcc A B i j k = prodAccExact A B i j k := by
  intro k
  induction k with
  | zero => intro _; rfl
  | succ k ih =>
    intro hk
    have ha := hA (i * 4 + k) (by omega)
    have hb := hB (k * 4 + j) (by omega)
    have hm := mul_range ha.1 ha.2 hb.1 hb.2
    have hb1 := prodAccExact_bound A B hA hB hi hj (k + 1) hk
    push_cast at hb1
    have hk4 : ((k : Int) + 1) ≤ 4 := by exact_mod_cast hk
    have e1 : sw_prodAcc A B i j (k + 1) =
        wrap32 (sw_prodAcc A B i j k + wrap32 (A (i * 4 + k) * B (k * 4 + j))) := rfl
    have e2 : prodAccExact A B i j (k + 1) =
        prodAccExact A B i j k + A (i * 4 + k) * B (k * 4 + j) := rfl
    have hw : wrap32 (A (i * 4 + k) * B (k * 4 + j)) = A (i * 4 + k) * B (k * 4 + j) :=
      wrap32_eq (by linarith [hm.1]) (by linarith [hm.2])
    rw [e1, ih (by omega), hw, ← e2]
    exact wrap32_eq (by linarith [hb1.1]) (by linarith [hb1.2])

theorem prodAccExact_eq_sum (A B : Nat → Int) (i j : Nat) :
    ∀ k, prodAccExact A B i j k = ∑ m in Finset.range k, A (i * 4 + m) * B (m * 4 + j) := by
  intro k
  induction k with
  | zero => simp [prodAccExact]
  | succ k ih => rw [Finset.sum_range_succ, ← ih]; rfl

theorem safeRange_idMat : safeRange idMat := by
  intro i _
  unfold idMat
  split <;> norm_num

theorem idMat_apply {i k : Nat} (hi : i < 4) (hk : k < 4) :
    idMat (i * 4 + k) = if i = k then 1 else 0 := by
  unfold idMat
  have h1 : (i * 4 + k) / 4 = i := by omega
  have h2 : (i * 4 + k) % 4 = k := by omega
  rw [h1, h2]

theorem safeRange_oneM : safeRange oneM := by
  intro i _
  norm_num [oneM]

theorem int16Range_oneM : int16Range oneM := by
  intro i _
  norm_num [oneM]

/-- Claim C2: for operands in the safe range, the software product satisfies
`Product[i*4+j] = Σ_{k<4} A[i*4+k] * B[k*4+j]` (with the 32-bit widened and
accumulated machine arithmetic of lines 48-58 computing exactly that sum),
and multiplying the identity matrix by `B` returns `B` unchanged. -/
theorem sw_product_is_matmul (A B : Nat → Int) (hA : safeRange A) (hB : safeRange B) :
    (∀ i j, i < 4 → j < 4 →
        sw_prod A B (i * 4 + j) = ∑ k in Finset.range 4, A (i * 4 + k) * B (k * 4 + j)) ∧
    (∀ idx, idx < 16 → sw_prod idMat B idx = B idx) := by
  constructor
  · intro i j hi hj
    unfold sw_prod
    have h1 : (i * 4 + j) / 4 = i := by omega
    have h2 : (i * 4 + j) % 4 = j := by omega
    rw [h1, h2, sw_prodAcc_eq A B hA hB hi hj 4 le_rfl, prodAccExact_eq_sum]
  · intro idx hidx
    have hi : idx / 4 < 4 := by omega
    have hj : idx % 4 < 4 := by omega
    unfold sw_prod
    rw [sw_prodAcc_eq idMat B safeRange_idMat hB hi hj 4 le_rfl, prodAccExact_eq_sum]
    have hsum : ∀ k, k < 4 → idMat (idx / 4 * 4 + k) = if idx / 4 = k then 1 else 0 :=
      fun k hk => idMat_apply hi hk
    rw [Finset.sum_range_succ, Finset.sum_range_succ, Finset.sum_range_succ,
      Finset.sum_range_succ, Finset.sum_range_zero,
      hsum 0 (by omega), hsum 1 (by omega), hsum 2 (by omega), hsum 3 (by omega)]
    have h4 : idx / 4 = 0 ∨ idx / 4 = 1 ∨ idx / 4 = 2 ∨ idx / 4 = 3 := by omega
    rcases h4 with hv | hv | hv | hv <;>
      (rw [hv]; norm_num; congr 1; omega)

theorem sw_product_is_matmul_witness :
    safeRange oneM ∧
    ((∀ i j, i < 4 → j < 4 →
        sw_prod oneM oneM (i * 4 + j) =
          ∑ k in Finset.range 4, oneM (i * 4 + k) * oneM (k * 4 + j)) ∧
     (∀ idx, idx < 16 → sw_prod idMat oneM idx = oneM idx)) :=
  ⟨safeRange_oneM, sw_product_is_matmul oneM oneM safeRange_oneM safeRange_oneM⟩

/-- Claim C3: for `int16_t` operand arrays, the software engine computes
`Sum[i] = A[i] + B[i]` and `Diff[i] = A[i] - B[i]` exactly, the 32-bit
widened machine operations never wrapping. -/
theorem sw_sum_diff_widened (A B : Nat → Int) (hA : int16Range A) (hB : int16Range B) :
    ∀ i, i < 16 → sw_sum A B i = A i + B i ∧ sw_diff A B i = A i - B i := by
  intro i hi
  obtain ⟨ha1, ha2⟩ := hA i hi
  obtain ⟨hb1, hb2⟩ := hB i hi
  unfold sw_sum sw_diff
  exact ⟨wrap32_eq (by omega) (by omega), wrap32_eq (by omega) (by omega)⟩

theorem sw_sum_diff_widened_witness :
    int16Range oneM ∧
    (∀ i, i < 16 → sw_sum oneM oneM i = oneM i + oneM i ∧
      sw_diff oneM oneM i = oneM i - oneM i) :=
  ⟨int16Range_oneM, sw_sum_diff_widened oneM oneM int16Range_oneM int16Range_oneM⟩

/-- Claim C4: within the safe input range ±23170, no operation of the
software engine leaves the signed 32-bit range: every widened sum,
difference, elementary product, and every intermediate value of the
four-term accumulation is in range, so the machine accumulation agrees
with the exact one. -/
theorem sw_no_overflow (A B : Nat → Int) (hA : safeRange A) (hB : safeRange B) :
    (∀ i, i < 16 → inI32 (A i + B i) ∧ inI32 (A i - B i)) ∧
    (∀ i j k, i < 4 → j < 4 → k < 4 → inI32 (A (i * 4 + k) * B (k * 4 + j))) ∧
    (∀ i j k, i < 4 → j < 4 → k ≤ 4 → inI32 (prodAccExact A B i j k) ∧
      sw_prodAcc A B i j k = prodAccExact A B i j k) := by
  refine ⟨?_, ?_, ?_⟩
  · intro i hi
    obtain ⟨ha1, ha2⟩ := hA i hi
    obtain ⟨hb1, hb2⟩ := hB i hi
    exact ⟨⟨by omega, by omega⟩, ⟨by omega, by omega⟩⟩
  · intro i j k hi hj hk
    obtain ⟨ha1, ha2⟩ := hA (i * 4 + k) (by omega)
    obtain ⟨hb1, hb2⟩ := hB (k * 4 + j) (by omega)
    have hm := mul_range ha1 ha2 hb1 hb2
    exact ⟨by linarith [hm.1], by linarith [hm.2]⟩
  · intro i j k hi hj hk
    have hb1 := prodAccExact_bound A B hA hB hi hj k hk
    have hk4 : ((k : Int)) ≤ 4 := by exact_mod_cast hk
    refine ⟨⟨by nlinarith [hb1.1], by nlinarith [hb1.2]⟩, sw_prodAcc_eq A B hA hB hi hj k hk⟩

theorem sw_no_overflow_witness :
    safeRange oneM ∧
    ((∀ i, i < 16 → inI32 (oneM i + oneM i) ∧ inI32 (oneM i - oneM i)) ∧
     (∀ i j k, i < 4 → j < 4 → k < 4 → inI32 (oneM (i * 4 + k) * oneM (k * 4 + j))) ∧
     (∀ i j k, i < 4 → j < 4 → k ≤ 4 → inI32 (prodAccExact oneM oneM i j k) ∧
       sw_prodAcc oneM oneM i j k = prodAccExact oneM oneM i j k)) :=
  ⟨safeRange_oneM, sw_no_overflow oneM oneM safeRange_oneM safeRange_oneM⟩

/-- Claim C5: for safe-range operands, `Sum[i] + Diff[i] = 2 * A[i]` for
every element index. -/
theorem sw_sum_add_diff (A B : Nat → Int) (hA : safeRange A) (hB : safeRange B) :
    ∀ i, i < 16 → sw_sum A B i + sw_diff A B i = 2 * A i := by
  intro i hi
  obtain ⟨ha1, ha2⟩ := hA i hi
  obtain ⟨hb1, hb2⟩ := hB i hi
  unfold sw_sum sw_diff
  rw [wrap32_eq (by omega) (by omega), wrap32_eq (by omega) (by omega)]
  ring

theorem sw_sum_add_diff_witness :
    safeRange oneM ∧
    (∀ i, i < 16 → sw_sum oneM oneM i + sw_diff oneM oneM i = 2 * oneM i) :=
  ⟨safeRange_oneM, sw_sum_add_diff oneM oneM safeRange_oneM safeRange_oneM⟩

/-- Claim C10: the 32-bit bus word `(uint32_t)x` written for an `int16_t`
operand `x` is the sign extension of `x`: reinterpreted as `int32_t` it is
`x` again, its low 16 bits are the two's-complement encoding of `x`, and a
peripheral consuming only those low 16 bits recovers `x`. -/
theorem operand_write_sign_extends (x : Int) (h1 : -32768 ≤ x) (h2 : x ≤ 32767) :
    toI32 (u32 x) = x ∧ u32 x % 65536 = (x % 65536).toNat ∧ decode16 (u32 x) = x := by
  unfold toI32 u32 decode16
  refine ⟨?_, ?_, ?_⟩ <;> (try split) <;> omega

theorem operand_write_sign_extends_witness :
    (-32768 ≤ (-5 : Int)) ∧ ((-5 : Int) ≤ 32767) ∧
    (toI32 (u32 (-5)) = -5 ∧ u32 (-5) % 65536 = ((-5 : Int) % 65536).toNat ∧
      decode16 (u32 (-5)) = -5) :=
  ⟨by norm_num, by norm_num,
    operand_write_sign_extends (-5) (by norm_num) (by norm_num)⟩

/-- Claim C1 (code bug): the benchmark's speedup computation at line 285 is
the unguarded `sw_cycles / hw_cycles`; when `hw_cycles = 0` it is a
division-by-zero fault (`none`), with no guard or fallback in the code. -/
theorem speedup_unguarded_div_by_zero : speedup 100 0 = none := rfl

theorem writeRegion_log (f : Nat → Nat) (base : Nat) :
    ∀ n log, writeRegion f base n log =
      log ++ (List.range n).map (fun i => Ev.write (base + i) (f i)) := by
  intro n
  induction n with
  | zero => intro log; simp [writeRegion]
  | succ n ih =>
    intro log
    simp [writeRegion, wrE, ih, List.range_succ]

theorem initLog_eq (A B : Nat → Int) :
    initLog A B = aWrites A ++ bWrites B ++ [Ev.write 80 1] := by
  unfold initLog wrE aWrites bWrites
  rw [writeRegion_log, writeRegion_log]
  have hf : (fun i => Ev.write (0 + i) (u32 (A i))) = fun i => Ev.write i (u32 (A i)) := by
    funext i
    rw [Nat.zero_add]
  simp [hf, List.append_assoc]

theorem poll_shape (resp : List Ev → Nat → Nat) :
    ∀ fuel log out, poll resp fuel log = some out →
      ∃ sv v, v % 2 = 1 ∧ (∀ u ∈ sv, u % 2 = 0) ∧
        out = log ++ statusReads sv ++ [Ev.read 81 v] := by
  intro fuel
  induction fuel with
  | zero => intro log out h; simp [poll] at h
  | succ fuel ih =>
    intro log out h
    by_cases hodd : resp log 81 % 2 = 1
    · refine ⟨[], resp log 81, hodd, by simp, ?_⟩
      simp [poll, hodd] at h
      simp [statusReads, ← h]
    · simp [poll, hodd] at h
      obtain ⟨sv, v, hv, hsv, hout⟩ := ih _ _ h
      refine ⟨resp log 81 :: sv, v, hv, ?_, ?_⟩
      · intro u hu
        rcases List.mem_cons.mp hu with h1 | h1
        · subst h1; omega
        · exact hsv u h1
      · rw [hout]; simp [statusReads]

theorem readsAtFrom_snoc (base : Nat) :
    ∀ (vs : List Nat) (i v : Nat), readsAtFrom base i (vs ++ [v]) =
      readsAtFrom base i vs ++ [Ev.read (base + (i + vs.length)) v] := by
  intro vs
  induction vs with
  | nil => intro i v; simp [readsAtFrom]
  | cons w ws ih =>
    intro i v
    simp only [List.cons_append, readsAtFrom, List.append_eq, ih, List.length_cons]
    have : i + 1 + ws.length = i + (ws.length + 1) := by omega
    rw [this]

theorem readRegion_shape (resp : List Ev → Nat → Nat) (base : Nat) :
    ∀ n log, ∃ vs : List Nat, vs.length = n ∧
      (readRegion resp base n log).1 = log ++ readsAtFrom base 0 vs ∧
      (readRegion resp base n log).2 = vs.map toI32 := by
  intro n
  induction n with
  | zero => intro log; exact ⟨[], rfl, by simp [readRegion, readsAtFrom], rfl⟩
  | succ n ih =>
    intro log
    obtain ⟨vs, hlen, h1, h2⟩ := ih log
    have e : readRegion resp base (n + 1) log =
        ((readRegion resp base n log).1 ++
            [Ev.read (base + n) (resp (readRegion resp base n log).1 (base + n))],
          (readRegion resp base n log).2 ++
            [toI32 (resp (readRegion resp base n log).1 (base + n))]) := rfl
    refine ⟨vs ++ [resp (readRegion resp base n log).1 (base + n)], by simp [hlen], ?_, ?_⟩
    · rw [e]
      show (readRegion resp base n log).1 ++ _ = _
      rw [h1, readsAtFrom_snoc, hlen]
      simp [List.append_assoc]
    · rw [e]
      show (readRegion resp base n log).2 ++ _ = _
      rw [h2]
      simp

/-- Claim C6: every terminating run of the driver produces the access log
consisting of, in order: the 16 operand-A writes, the 16 operand-B writes,
the single control write of 1, one or more status reads of which all but
the last return bit 0 = 0 and the last returns bit 0 = 1, and only then
the 16 sum-region, 16 diff-region and 16 product-region reads. -/
theorem hw_access_order (resp : List Ev → Nat → Nat) (A B : Nat → Int) (fuel : Nat)
    (log : List Ev) (sums diffs prods : List Int)
    (h : hardware_matrix_operations resp A B fuel = some (log, sums, diffs, prods)) :
    ∃ sv v rs rd rp, v % 2 = 1 ∧ (∀ u ∈ sv, u % 2 = 0) ∧
      rs.length = 16 ∧ rd.length = 16 ∧ rp.length = 16 ∧
      log = aWrites A ++ bWrites B ++ [Ev.write 80 1] ++ statusReads sv ++
        [Ev.read 81 v] ++ readsAtFrom 32 0 rs ++ readsAtFrom 48 0 rd ++
        readsAtFrom 64 0 rp := by
  unfold hardware_matrix_operations at h
  cases hpoll : poll resp fuel (initLog A B) with
  | none => rw [hpoll] at h; exact absurd h (by simp)
  | some l4 =>
    rw [hpoll] at h
    simp only [Option.map_some', Option.some.injEq] at h
    obtain ⟨sv, v, hv, hsv, hl4⟩ := poll_shape resp fuel (initLog A B) l4 hpoll
    obtain ⟨rs, hrs, h32a, _⟩ := readRegion_shape resp 32 16 l4
    obtain ⟨rd, hrd, h48a, _⟩ := readRegion_shape resp 48 16 (readRegion resp 32 16 l4).1
    obtain ⟨rp, hrp, h64a, _⟩ := readRegion_shape resp 64 16
      (readRegion resp 48 16 (readRegion resp 32 16 l4).1).1
    have hlog : log = (readRegion resp 64 16
        (readRegion resp 48 16 (readRegion resp 32 16 l4).1).1).1 := by
      have h1 : (hwOut resp l4).1 = log := congrArg Prod.fst h
      exact h1.symm
    refine ⟨sv, v, rs, rd, rp, hv, hsv, hrs, hrd, hrp, ?_⟩
    rw [hlog, h64a, h48a, h32a, hl4, initLog_eq]

set_option maxHeartbeats 2000000 in
theorem hw_run_concrete :
    hardware_matrix_operations respOne zeroM zeroM 1 =
      some (cLog, List.replicate 16 (0 : Int), List.replicate 16 (0 : Int),
        List.replicate 16 (0 : Int)) := by
  decide

theorem hw_access_order_witness :
    hardware_matrix_operations respOne zeroM zeroM 1 =
      some (cLog, List.replicate 16 (0 : Int), List.replicate 16 (0 : Int),
        List.replicate 16 (0 : Int)) ∧
    (∃ sv v rs rd rp, v % 2 = 1 ∧ (∀ u ∈ sv, u % 2 = 0) ∧
      rs.length = 16 ∧ rd.length = 16 ∧ rp.length = 16 ∧
      cLog = aWrites zeroM ++ bWrites zeroM ++ [Ev.write 80 1] ++ statusReads sv ++
        [Ev.read 81 v] ++ readsAtFrom 32 0 rs ++ readsAtFrom 48 0 rd ++
        readsAtFrom 64 0 rp) :=
  ⟨hw_run_concrete,
   hw_access_order respOne zeroM zeroM 1 cLog (List.replicate 16 0)
     (List.replicate 16 0) (List.replicate 16 0) hw_run_concrete⟩

theorem pollLog_shift (resp : List Ev → Nat → Nat) (log : List Ev) :
    ∀ n, pollLog resp (log ++ [Ev.read 81 (resp log 81)]) n = pollLog resp log (n + 1) := by
  intro n
  induction n with
  | zero => rfl
  | succ n ih => simp only [pollLog, ih]

theorem statusSeq_shift (resp : List Ev → Nat → Nat) (log : List Ev) (n : Nat) :
    statusSeq resp (log ++ [Ev.read 81 (resp log 81)]) n = statusSeq resp log (n + 1) := by
  unfold statusSeq
  rw [pollLog_shift]

theorem poll_some_status (resp : List Ev → Nat → Nat) :
    ∀ fuel log out, poll resp fuel log = some out →
      ∃ n, statusSeq resp log n % 2 = 1 := by
  intro fuel
  induction fuel with
  | zero => intro log out h; simp [poll] at h
  | succ fuel ih =>
    intro log out h
    by_cases hodd : resp log 81 % 2 = 1
    · exact ⟨0, hodd⟩
    · simp [poll, hodd] at h
      obtain ⟨n, hn⟩ := ih _ _ h
      refine ⟨n + 1, ?_⟩
      rw [← statusSeq_shift]
      exact hn

theorem poll_succeeds (resp : List Ev → Nat → Nat) :
    ∀ n log, statusSeq resp log n % 2 = 1 →
      ∃ out, poll resp (n + 1) log = some out := by
  intro n
  induction n with
  | zero =>
    intro log hn
    have hn' : resp log 81 % 2 = 1 := hn
    exact ⟨log ++ [Ev.read 81 (resp log 81)], by simp [poll, hn']⟩
  | succ n ih =>
    intro log hn
    by_cases hodd : resp log 81 % 2 = 1
    · exact ⟨log ++ [Ev.read 81 (resp log 81)], by simp [poll, hodd]⟩
    · obtain ⟨out, h⟩ := ih (log ++ [Ev.read 81 (resp log 81)])
        (by rw [statusSeq_shift]; exact hn)
      exact ⟨out, by simpa [poll, hodd] using h⟩

/-- Claim C8: the status poll is a blocking, unbounded wait: it terminates
(for some amount of fuel) exactly when some status read returns a value
with bit 0 set; if every status read returns bit 0 = 0 no amount of fuel
makes it return. -/
theorem poll_terminates_iff (resp : List Ev → Nat → Nat) (log : List Ev) :
    (∃ fuel out, poll resp fuel log = some out) ↔
      ∃ n, statusSeq resp log n % 2 = 1 := by
  constructor
  · rintro ⟨fuel, out, h⟩
    exact poll_some_status resp fuel log out h
  · rintro ⟨n, hn⟩
    obtain ⟨out, h⟩ := poll_succeeds resp n log hn
    exact ⟨n + 1, out, h⟩

theorem poll_terminates_iff_witness :
    ∃ fuel out, poll respOne fuel [] = some out :=
  (poll_terminates_iff respOne []).mpr ⟨0, by decide⟩

/-- Claim C7: the cycle-count readback issues, in order, the control write
of 0x8 (stop bit), the write of 1 to the snapshot register, then the two
16-bit half reads combined as `(high << 16) | low`; the returned value is
`0xFFFFFFFF` minus the latched 32-bit count. -/
theorem stop_and_read_correct (hi16 lo16 : Nat) (h1 : hi16 < 65536) (h2 : lo16 < 65536) :
    (stop_and_read hi16 lo16).1 =
      [Ev.write 1 8, Ev.write 4 1, Ev.read 5 hi16, Ev.read 4 lo16] ∧
    (stop_and_read hi16 lo16).2 = 4294967295 - (hi16 * 65536 + lo16) := by
  refine ⟨rfl, ?_⟩
  show (4294967295 +
      (4294967296 - ((((hi16 % 4294967296) <<< 16) % 4294967296) ||| (lo16 % 4294967296)))) %
      4294967296 = _
  have e1 : hi16 % 4294967296 = hi16 := Nat.mod_eq_of_lt (by omega)
  have e2 : lo16 % 4294967296 = lo16 := Nat.mod_eq_of_lt (by omega)
  rw [e1, e2, Nat.shiftLeft_eq]
  have e3 : hi16 * 2 ^ 16 % 4294967296 = hi16 * 65536 := by
    have : hi16 * 2 ^ 16 = hi16 * 65536 := by norm_num
    rw [this]
    exact Nat.mod_eq_of_lt (by omega)
  rw [e3]
  have hlt : lo16 < 2 ^ 16 := by omega
  have e4 : 2 ^ 16 * hi16 + lo16 = 2 ^ 16 * hi16 ||| lo16 := Nat.mul_add_lt_is_or hlt hi16
  have e5 : hi16 * 65536 ||| lo16 = hi16 * 65536 + lo16 := by
    have hc : hi16 * 65536 = 2 ^ 16 * hi16 := by norm_num [Nat.mul_comm]
    rw [hc, ← e4]
  rw [e5]
  omega

theorem stop_and_read_correct_witness :
    (2 < 65536) ∧ (3 < 65536) ∧
    ((stop_and_read 2 3).1 = [Ev.write 1 8, Ev.write 4 1, Ev.read 5 2, Ev.read 4 3] ∧
     (stop_and_read 2 3).2 = 4294967295 - (2 * 65536 + 3)) :=
  ⟨by norm_num, by norm_num, stop_and_read_correct 2 3 (by norm_num) (by norm_num)⟩

theorem decode16_u32 {x : Int} (h1 : -32768 ≤ x) (h2 : x ≤ 32767) :
    decode16 (u32 x) = x := by
  unfold decode16 u32
  split <;> omega

theorem toI32_u32 {x : Int} (h1 : -2147483648 ≤ x) (h2 : x ≤ 2147483647) :
    toI32 (u32 x) = x := by
  unfold toI32 u32
  split <;> omega

theorem prodAccExact_four_list (A B : Nat → Int) (i j : Nat) :
    ((List.range 4).map fun k => A (i * 4 + k) * B (k * 4 + j)).sum =
      prodAccExact A B i j 4 := by
  rw [prodAccExact_eq_sum, show List.range 4 = [0, 1, 2, 3] from rfl]
  simp [Finset.sum_range_succ]
  ring

theorem lastWriteTo_snoc_read (l : List Ev) (b v a : Nat) :
    lastWriteTo (l ++ [Ev.read b v]) a = lastWriteTo l a := by
  unfold lastWriteTo
  rw [List.filterMap_append]
  simp

theorem lastWriteTo_snoc_write (l : List Ev) (b v a : Nat) :
    lastWriteTo (l ++ [Ev.write b v]) a =
      if b = a then some v else lastWriteTo l a := by
  unfold lastWriteTo
  rw [List.filterMap_append]
  by_cases hba : b = a
  · simp [hba]
  · simp [hba]

theorem lastWriteTo_writeRegion_in (f : Nat → Nat) (base : Nat) :
    ∀ n log i, i < n →
      lastWriteTo (writeRegion f base n log) (base + i) = some (f i) := by
  intro n
  induction n with
  | zero => intro log i h; omega
  | succ n ih =>
    intro log i h
    have e : writeRegion f base (n + 1) log =
        writeRegion f base n log ++ [Ev.write (base + n) (f n)] := rfl
    rw [e, lastWriteTo_snoc_write]
    by_cases hin : i = n
    · subst hin; simp
    · rw [if_neg (by omega)]
      exact ih log i (by omega)

theorem lastWriteTo_writeRegion_out (f : Nat → Nat) (base : Nat) :
    ∀ n log a, (∀ i, i < n → base + i ≠ a) →
      lastWriteTo (writeRegion f base n log) a = lastWriteTo log a := by
  intro n
  induction n with
  | zero => intro log a _; rfl
  | succ n ih =>
    intro log a hout
    have e : writeRegion f base (n + 1) log =
        writeRegion f base n log ++ [Ev.write (base + n) (f n)] := rfl
    rw [e, lastWriteTo_snoc_write, if_neg (hout n (by omega))]
    exact ih log a fun i h => hout i (by omega)

theorem lastWriteTo_append_reads :
    ∀ ext : List Ev, (∀ e ∈ ext, isReadEv e = true) →
      ∀ l a, lastWriteTo (l ++ ext) a = lastWriteTo l a := by
  intro ext
  induction ext with
  | nil => intro _ l a; simp
  | cons e es ih =>
    intro hext l a
    cases e with
    | write b v =>
      have := hext (Ev.write b v) (by simp)
      simp [isReadEv] at this
    | read b v =>
      have h1 : l ++ (Ev.read b v :: es) = (l ++ [Ev.read b v]) ++ es := by simp
      rw [h1, ih (fun e he => hext e (List.mem_cons_of_mem _ he)), lastWriteTo_snoc_read]

theorem specResp_append_reads (l ext : List Ev) (a : Nat)
    (hext : ∀ e ∈ ext, isReadEv e = true) :
    specResp (l ++ ext) a = specResp l a := by
  unfold specResp regA regB
  simp only [lastWriteTo_append_reads ext hext]

theorem lastWriteTo_initLog_A (A B : Nat → Int) (i : Nat) (hi : i < 16) :
    lastWriteTo (initLog A B) i = some (u32 (A i)) := by
  unfold initLog wrE
  rw [lastWriteTo_snoc_write, if_neg (by omega),
    lastWriteTo_writeRegion_out (fun k => u32 (B k)) 16 16 _ i (fun k hk => by omega)]
  have := lastWriteTo_writeRegion_in (fun k => u32 (A k)) 0 16 [] i hi
  simpa using this

theorem lastWriteTo_initLog_B (A B : Nat → Int) (i : Nat) (hi : i < 16) :
    lastWriteTo (initLog A B) (16 + i) = some (u32 (B i)) := by
  unfold initLog wrE
  rw [lastWriteTo_snoc_write, if_neg (by omega)]
  exact lastWriteTo_writeRegion_in (fun k => u32 (B k)) 16 16 _ i hi

theorem lastWriteTo_initLog_ctrl (A B : Nat → Int) :
    lastWriteTo (initLog A B) 80 = some 1 := by
  unfold initLog wrE
  rw [lastWriteTo_snoc_write, if_pos rfl]

theorem regA_l4spec (A B : Nat → Int) (hA : safeRange A) (i : Nat) (hi : i < 16) :
    regA (l4spec A B) i = A i := by
  unfold regA l4spec
  rw [lastWriteTo_snoc_read, lastWriteTo_initLog_A A B i hi]
  obtain ⟨h1, h2⟩ := hA i hi
  simpa using decode16_u32 (x := A i) (by omega) (by omega)

theorem regB_l4spec (A B : Nat → Int) (hB : safeRange B) (i : Nat) (hi : i < 16) :
    regB (l4spec A B) i = B i := by
  unfold regB l4spec
  rw [lastWriteTo_snoc_read, lastWriteTo_initLog_B A B i hi]
  obtain ⟨h1, h2⟩ := hB i hi
  simpa using decode16_u32 (x := B i) (by omega) (by omega)

theorem readRegion_vals (resp : List Ev → Nat → Nat)
    (hresp : ∀ l ext a, (∀ e ∈ ext, isReadEv e = true) → resp (l ++ ext) a = resp l a)
    (base : Nat) :
    ∀ n log, (∃ ext, (∀ e ∈ ext, isReadEv e = true) ∧
        (readRegion resp base n log).1 = log ++ ext) ∧
      (readRegion resp base n log).2 =
        (List.range n).map fun i => toI32 (resp log (base + i)) := by
  intro n
  induction n with
  | zero =>
    intro log
    exact ⟨⟨[], by simp, by simp [readRegion]⟩, by simp [readRegion]⟩
  | succ n ih =>
    intro log
    obtain ⟨⟨ext, hext, h1⟩, h2⟩ := ih log
    have hv : resp (readRegion resp base n log).1 (base + n) = resp log (base + n) := by
      rw [h1]
      exact hresp log ext (base + n) hext
    constructor
    · refine ⟨ext ++ [Ev.read (base + n) (resp (readRegion resp base n log).1 (base + n))],
        ?_, ?_⟩
      · intro e he
        rcases List.mem_append.mp he with h | h
        · exact hext e h
        · simp at h; subst h; rfl
      · have e : (readRegion resp base (n + 1) log).1 =
            (readRegion resp base n log).1 ++
              [Ev.read (base + n) (resp (readRegion resp base n log).1 (base + n))] := rfl
        rw [e, h1, List.append_assoc]
    · have e : (readRegion resp base (n + 1) log).2 =
          (readRegion resp base n log).2 ++
            [toI32 (resp (readRegion resp base n log).1 (base + n))] := rfl
      rw [e, h2, hv, List.range_succ]
      simp

theorem specResp_l4spec_sum (A B : Nat → Int) (hA : safeRange A) (hB : safeRange B)
    (i : Nat) (hi : i < 16) :
    specResp (l4spec A B) (32 + i) = u32 (A i + B i) := by
  unfold specResp
  rw [if_neg (by omega), if_pos (by omega)]
  rw [show 32 + i - 32 = i from by omega,
    regA_l4spec A B hA i hi, regB_l4spec A B hB i hi]

theorem specResp_l4spec_diff (A B : Nat → Int) (hA : safeRange A) (hB : safeRange B)
    (i : Nat) (hi : i < 16) :
    specResp (l4spec A B) (48 + i) = u32 (A i - B i) := by
  unfold specResp
  rw [if_neg (by omega), if_neg (by omega), if_pos (by omega)]
  rw [show 48 + i - 48 = i from by omega,
    regA_l4spec A B hA i hi, regB_l4spec A B hB i hi]

theorem specResp_l4spec_prod (A B : Nat → Int) (hA : safeRange A) (hB : safeRange B)
    (i : Nat) (hi : i < 16) :
    specResp (l4spec A B) (64 + i) = u32 (prodAccExact A B (i / 4) (i % 4) 4) := by
  unfold specResp
  rw [if_neg (by omega), if_neg (by omega), if_neg (by omega), if_pos (by omega)]
  rw [show 64 + i - 64 = i from by omega]
  have hmap : ((List.range 4).map fun k =>
        regA (l4spec A B) (i / 4 * 4 + k) * regB (l4spec A B) (k * 4 + i % 4)) =
      (List.range 4).map fun k => A (i / 4 * 4 + k) * B (k * 4 + i % 4) := by
    apply List.map_congr_left
    intro k hk
    have hk4 : k < 4 := List.mem_range.mp hk
    rw [regA_l4spec A B hA _ (by omega), regB_l4spec A B hB _ (by omega)]
  rw [hmap, prodAccExact_four_list]

theorem hw_result_sum (A B : Nat → Int) (hA : safeRange A) (hB : safeRange B)
    (i : Nat) (hi : i < 16) :
    toI32 (specResp (l4spec A B) (32 + i)) = sw_sum A B i := by
  rw [specResp_l4spec_sum A B hA hB i hi]
  obtain ⟨ha1, ha2⟩ := hA i hi
  obtain ⟨hb1, hb2⟩ := hB i hi
  rw [toI32_u32 (by omega) (by omega)]
  exact (wrap32_eq (by omega) (by omega)).symm

theorem hw_result_diff (A B : Nat → Int) (hA : safeRange A) (hB : safeRange B)
    (i : Nat) (hi : i < 16) :
    toI32 (specResp (l4spec A B) (48 + i)) = sw_diff A B i := by
  rw [specResp_l4spec_diff A B hA hB i hi]
  obtain ⟨ha1, ha2⟩ := hA i hi
  obtain ⟨hb1, hb2⟩ := hB i hi
  rw [toI32_u32 (by omega) (by omega)]
  exact (wrap32_eq (by omega) (by omega)).symm

theorem hw_result_prod (A B : Nat → Int) (hA : safeRange A) (hB : safeRange B)
    (i : Nat) (hi : i < 16) :
    toI32 (specResp (l4spec A B) (64 + i)) = sw_prod A B i := by
  rw [specResp_l4spec_prod A B hA hB i hi]
  have hi4 : i / 4 < 4 := by omega
  have hj4 : i % 4 < 4 := by omega
  have hb := prodAccExact_bound A B hA hB hi4 hj4 4 le_rfl
  push_cast at hb
  rw [toI32_u32 (by linarith [hb.1]) (by linarith [hb.2])]
  unfold sw_prod
  exact (sw_prodAcc_eq A B hA hB hi4 hj4 4 le_rfl).symm

theorem specResp_initLog_status (A B : Nat → Int) :
    specResp (initLog A B) 81 = 1 := by
  unfold specResp
  rw [if_pos rfl, lastWriteTo_initLog_ctrl]
  norm_num

theorem poll_specResp (A B : Nat → Int) :
    poll specResp 1 (initLog A B) = some (l4spec A B) := by
  unfold poll l4spec
  rw [specResp_initLog_status]
  norm_num

/-- Claim C9: against the spec-modelled peripheral, the three result
matrices the driver returns equal, element for element, the three result
matrices of the software engine, for all safe-range operands. -/
theorem hw_matches_sw (A B : Nat → Int) (hA : safeRange A) (hB : safeRange B) :
    ∃ log, hardware_matrix_operations specResp A B 1 =
      some (log, (List.range 16).map (sw_sum A B), (List.range 16).map (sw_diff A B),
        (List.range 16).map (sw_prod A B)) := by
  have hresp : ∀ l ext a, (∀ e ∈ ext, isReadEv e = true) →
      specResp (l ++ ext) a = specResp l a :=
    fun l ext a h => specResp_append_reads l ext a h
  obtain ⟨⟨ext1, hext1, hfst1⟩, hsnd1⟩ := readRegion_vals specResp hresp 32 16 (l4spec A B)
  obtain ⟨⟨ext2, hext2, hfst2⟩, hsnd2⟩ :=
    readRegion_vals specResp hresp 48 16 (readRegion specResp 32 16 (l4spec A B)).1
  obtain ⟨⟨ext3, hext3, hfst3⟩, hsnd3⟩ := readRegion_vals specResp hresp 64 16
    (readRegion specResp 48 16 (readRegion specResp 32 16 (l4spec A B)).1).1
  have hs : (readRegion specResp 32 16 (l4spec A B)).2 =
      (List.range 16).map (sw_sum A B) := by
    rw [hsnd1]
    apply List.map_congr_left
    intro i hi
    exact hw_result_sum A B hA hB i (List.mem_range.mp hi)
  have hlog2 : ∀ a : Nat, specResp (readRegion specResp 32 16 (l4spec A B)).1 a =
      specResp (l4spec A B) a := by
    intro a
    rw [hfst1]
    exact hresp _ ext1 a hext1
  have hd : (readRegion specResp 48 16 (readRegion specResp 32 16 (l4spec A B)).1).2 =
      (List.range 16).map (sw_diff A B) := by
    rw [hsnd2]
    apply List.map_congr_left
    intro i hi
    rw [hlog2]
    exact hw_result_diff A B hA hB i (List.mem_range.mp hi)
  have hlog3 : ∀ a : Nat, specResp
      (readRegion specResp 48 16 (readRegion specResp 32 16 (l4spec A B)).1).1 a =
      specResp (l4spec A B) a := by
    intro a
    rw [hfst2, hfst1, List.append_assoc]
    refine hresp _ (ext1 ++ ext2) a ?_
    intro e he
    rcases List.mem_append.mp he with h | h
    · exact hext1 e h
    · exact hext2 e h
  have hp : (readRegion specResp 64 16
      (readRegion specResp 48 16 (readRegion specResp 32 16 (l4spec A B)).1).1).2 =
      (List.range 16).map (sw_prod A B) := by
    rw [hsnd3]
    apply List.map_congr_left
    intro i hi
    rw [hlog3]
    exact hw_result_prod A B hA hB i (List.mem_range.mp hi)
  refine ⟨(readRegion specResp 64 16
    (readRegion specResp 48 16 (readRegion specResp 32 16 (l4spec A B)).1).1).1, ?_⟩
  unfold hardware_matrix_operations
  rw [poll_specResp]
  simp only [Option.map_some']
  unfold hwOut
  rw [hs, hd, hp]

theorem hw_matches_sw_witness :
    safeRange oneM ∧
    (∃ log, hardware_matrix_operations specResp oneM oneM 1 =
      some (log, (List.range 16).map (sw_sum oneM oneM),
        (List.range 16).map (sw_diff oneM oneM),
        (List.range 16).map (sw_prod oneM oneM))) :=
  ⟨safeRange_oneM, hw_matches_sw oneM oneM safeRange_oneM safeRange_oneM⟩
